import Mathlib

/-!
Shallow embedding of the Zeckendorf skip list package (`zsl.go`): the
blocked engine (`BlockedZSL`) and the static engine (`StaticZSL`), with
their constructors and operations, translated from the Go source.
Go slices become `List`, Go `int` keys become `Int`, Go runtime panics
(out-of-range indexing, negative `make` capacity) become `Option`
results where they can actually occur.
-/

namespace ZSL

/-- Model of Go `sort.SearchInts(a, x)`: the least index `i` with
`a[i] >= x`, or `len(a)` when there is none (lower bound on a sorted
slice). -/
def lowerBound (l : List Int) (x : Int) : Nat :=
  l.findIdx (fun k => decide (x ≤ k))

/-- Model of Go `sort.Search(len(heads), func(i) { heads[i] > key })`:
the least index whose head exceeds `key`, or `len(heads)` when there is
none.  Go's binary search is specified to return exactly this index for
the monotone predicates used throughout the source. -/
def goSearch (heads : List Int) (key : Int) : Nat :=
  heads.findIdx (fun h => decide (key < h))

/-- Model of Go `sort.Ints(keys)`: the ascending reordering of the
slice.  On `int` values any correct sort produces the same list, so we
use insertion sort. -/
def goSortInts (l : List Int) : List Int :=
  List.insertionSort (· ≤ ·) l

/-- The deduplication loop shared by both constructors
(`if i == 0 || key != prevKey { append...; prevKey = key }`); the
second argument is `none` before the first iteration and `some prevKey`
afterwards. -/
def dedupGo : List Int → Option Int → List Int
  | [], _ => []
  | k :: rest, none => k :: dedupGo rest (some k)
  | k :: rest, some p => if k ≠ p then k :: dedupGo rest (some k) else dedupGo rest (some p)

/-- Adjacent deduplication of a (sorted) list, as performed by
`NewStaticZSL`. -/
def dedupSorted (l : List Int) : List Int := dedupGo l none

/-- Precomputed Fibonacci offsets (`fibsOffsets` in the source). -/
def fibsOffsets : List Nat :=
  [1, 2, 3, 5, 8, 13, 21, 34, 55, 89,
   144, 233, 377, 610, 987, 1597, 2584, 4181,
   6765, 10946, 17711, 28657, 46368, 75025,
   121393, 196418, 317811, 514229, 832040,
   1346269, 2178309, 3524578, 5702887,
   9227465, 14930352, 24157817, 39088169,
   63245986, 102334155, 165580141,
   267914296, 433494437, 701408733,
   1134903170, 1836311903]

/-- `maxLevel` as computed in `buildPointers`: the loop scans
`fibsOffsets` in order and breaks at the first offset exceeding
`numKeys`, so `maxLevel` is the length of the prefix of offsets that
are `≤ numKeys`. -/
def maxLevelFor (n : Nat) : Nat :=
  (fibsOffsets.takeWhile (fun f => decide (f ≤ n))).length

/-- The inner loop of `buildPointers` for one rank `r`: state is
`(remainingRank, levelIdx, row)` with `fuel = levelIdx + 1`, so
`fuel = 0` encodes Go's `levelIdx < 0` exit.  On selecting offset
`F[levelIdx]` the Go code does `levelIdx -= 2`, i.e. new fuel `li` when
`fuel = li + 2` and loop exit when `fuel = 1` (`levelIdx = 0`);
otherwise `levelIdx--`.  The `fuel = 1` case is spelled out so that the
recursion is structural. -/
def pointerLoop (n r : Nat) : Nat → Nat → List Nat → List Nat
  | _, 0, row => row
  | rem, 1, row =>
    if rem = 0 then row
    else if fibsOffsets.getD 0 0 ≤ rem then
      if r + fibsOffsets.getD 0 0 ≤ n then row.set 1 (r + fibsOffsets.getD 0 0) else row
    else row
  | rem, li + 2, row =>
    if rem = 0 then row
    else if fibsOffsets.getD (li + 1) 0 ≤ rem then
      pointerLoop n r (rem - fibsOffsets.getD (li + 1) 0) li
        (if r + fibsOffsets.getD (li + 1) 0 ≤ n then
          row.set (li + 2) (r + fibsOffsets.getD (li + 1) 0)
        else row)
    else pointerLoop n r rem (li + 1) row

/-- The pointer row built for rank `r` (ranks `1..n`): the loop starts
with `remainingRank = r`, `levelIdx = maxLevel - 1` and an all-zero row
of length `maxLevel + 1`. -/
def rankRow (n maxLevel r : Nat) : List Nat :=
  pointerLoop n r r maxLevel (List.replicate (maxLevel + 1) 0)

/-- The head row (rank 0): for each level `L` in `1..maxLevel`, the
entry is `fibsOffsets[L-1]` when that offset is `≤ numKeys`, else the
sentinel 0. -/
def headRow (n maxLevel : Nat) : List Nat :=
  (List.range (maxLevel + 1)).map fun L =>
    if L = 0 then 0
    else if fibsOffsets.getD (L - 1) 0 ≤ n then fibsOffsets.getD (L - 1) 0 else 0

/-- The static engine: sorted deduplicated keys, the maximum Fibonacci
level, and the pointer table `next[rank][level]`. -/
structure StaticZSL where
  keys : List Int
  maxLevel : Nat
  next : List (List Nat)
  deriving Repr, DecidableEq

/-- `StaticZSL.buildPointers`: recompute `maxLevel` and the whole
pointer table from the current keys. -/
def buildPointers (keys : List Int) : StaticZSL :=
  let n := keys.length
  let m := maxLevelFor n
  { keys := keys
    maxLevel := m
    next := (List.range (n + 1)).map fun r => if r = 0 then headRow n m else rankRow n m r }

/-- `NewStaticZSL`, paired with the content of the caller's slice after
the call: `sort.Ints` sorts the argument in place, so afterwards the
caller's slice holds the sorted keys. -/
def newStaticZSLFull (keys : List Int) : StaticZSL × List Int :=
  let sorted := goSortInts keys
  let uniqueKeys := dedupSorted sorted
  (buildPointers uniqueKeys, sorted)

/-- `NewStaticZSL`: sort, deduplicate, build pointers. -/
def newStaticZSL (keys : List Int) : StaticZSL :=
  (newStaticZSLFull keys).1

/-- The inner `for` loop of `StaticZSL.Search` at one level: follow
`next[cur][level]` while it is nonzero and the pointed-to key is
`≤ key`.  Out-of-range indexing (a Go panic) yields `none`.  The fuel
only bounds the iteration count; every pointer stored by
`buildPointers` strictly increases the node index, so a fuel of
`len(next) + 1` is never exhausted on states built by the constructor. -/
def whileHop (next : List (List Nat)) (keys : List Int) (key : Int) (level : Nat) :
    Nat → Nat → Option Nat
  | 0, _ => none
  | fuel + 1, cur => do
    let row ← next.get? cur
    let nxt ← row.get? level
    if nxt ≠ 0 then do
      let k ← keys.get? (nxt - 1)
      if k ≤ key then whileHop next keys key level fuel nxt else pure cur
    else pure cur

/-- The outer loop of `StaticZSL.Search`: levels from `maxLevel` down
to 1. -/
def levelLoop (next : List (List Nat)) (keys : List Int) (key : Int) :
    Nat → Nat → Option Nat
  | 0, cur => pure cur
  | level + 1, cur => do
    let cur' ← whileHop next keys key (level + 1) (next.length + 1) cur
    levelLoop next keys key level cur'

/-- `StaticZSL.Search`: descend from the highest level, take the final
step at level 1, then test the resting rank's key for equality.  The
accesses `next[currentNode][1]` and `keys[...-1]` are modelled with
`get?`, so a Go index-out-of-range panic surfaces as `none`. -/
def StaticZSL.search (z : StaticZSL) (key : Int) : Option Bool := do
  let cur ← levelLoop z.next z.keys key z.maxLevel 0
  let row ← z.next.get? cur
  let nxt ← row.get? 1
  let cur2 ←
    if nxt ≠ 0 then do
      let k ← z.keys.get? (nxt - 1)
      pure (if k == key then nxt else cur)
    else pure cur
  if cur2 ≠ 0 then do
    let k ← z.keys.get? (cur2 - 1)
    pure (k == key)
  else pure false

/-- `StaticZSL.Insert`: splice the key into the sorted sequence (no-op
when present) and rebuild the pointer table. -/
def StaticZSL.insert (z : StaticZSL) (key : Int) : StaticZSL :=
  let pos := lowerBound z.keys key
  if pos < z.keys.length ∧ z.keys.getD pos 0 = key then z
  else buildPointers (z.keys.take pos ++ [key] ++ z.keys.drop pos)

/-- `StaticZSL.Delete`: remove the key when present (returning whether
it was found) and rebuild the pointer table. -/
def StaticZSL.delete (z : StaticZSL) (key : Int) : StaticZSL × Bool :=
  let pos := lowerBound z.keys key
  if pos ≥ z.keys.length ∨ z.keys.getD pos 0 ≠ key then (z, false)
  else (buildPointers (z.keys.eraseIdx pos), true)

/-- `StaticZSL.GetKeys` (a copy of the key slice). -/
def StaticZSL.getKeys (z : StaticZSL) : List Int := z.keys

/-- `StaticZSL.GetSize`. -/
def StaticZSL.getSize (z : StaticZSL) : Nat := z.keys.length

/-- `StaticZSL.RangeFunc`: the ascending sequence of callback
arguments, namely the keys from the lower bound of `lo` while they are
`< hi`. -/
def StaticZSL.rangeFunc (z : StaticZSL) (lo hi : Int) : List Int :=
  (z.keys.drop (lowerBound z.keys lo)).takeWhile (fun k => decide (k < hi))

/-- The block-partition loop of `NewBlockedZSL`
(`for startIdx := 0; startIdx < len(keys); startIdx += B`), written
with the remaining suffix as state.  The fuel starts at `len(keys)`,
which suffices because each iteration consumes `B ≥ 1` elements; for
`B ≤ 0` the Go loop never terminates (see `chunks`). -/
def chunksGo (b : Nat) : Nat → List Int → List (List Int)
  | 0, _ => []
  | _, [] => []
  | fuel + 1, k :: rest => (k :: rest).take b :: chunksGo b fuel ((k :: rest).drop b)

/-- Sequential partition of the sorted keys into blocks of `B`
elements (the final block may be shorter).  The Go loop diverges for
`B ≤ 0`; every claim assumes `B ≥ 1`, and we only model that case. -/
def chunks (b : Nat) (l : List Int) : List (List Int) :=
  if b = 0 then [] else chunksGo b l.length l

/-- The blocked engine: blocks of sorted keys, the parallel array of
block heads, and the target block size `B`. -/
structure BlockedZSL where
  blocks : List (List Int)
  heads : List Int
  B : Nat
  deriving Repr, DecidableEq

/-- `NewBlockedZSL`, paired with the content of the caller's slice
after the call (`sort.Ints` sorts it in place).  The source computes
`uniqueKeys` but discards every `append` result
(`_ = append(uniqueKeys, key)`), so the partition operates on the
sorted, NOT deduplicated keys — translated faithfully here.  Blocks
produced by the partition are nonempty (for `B ≥ 1`), so `block[0]`
is modelled by `headD`. -/
def newBlockedZSLFull (keys : List Int) (B : Nat) : BlockedZSL × List Int :=
  let sorted := goSortInts keys
  let blocks := chunks B sorted
  ({ blocks := blocks, heads := blocks.map (fun blk => blk.headD 0), B := B }, sorted)

/-- `NewBlockedZSL`. -/
def newBlockedZSL (keys : List Int) (B : Nat) : BlockedZSL :=
  (newBlockedZSLFull keys B).1

/-- `BlockedZSL.Search`: binary search on heads for the candidate
block, then binary search within the block. -/
def BlockedZSL.search (bz : BlockedZSL) (key : Int) : Bool :=
  let targetBlockIdx := goSearch bz.heads key
  let blockIdx : Int := (targetBlockIdx : Int) - 1
  if blockIdx < 0 then false
  else
    let currentBlock := bz.blocks.getD blockIdx.toNat []
    let keyPos := lowerBound currentBlock key
    decide (keyPos < currentBlock.length ∧ currentBlock.getD keyPos 0 = key)

/-- `BlockedZSL.Insert`: locate the candidate block (clamping the
index into range), insert in place unless present, split when the
block exceeds `2B`, otherwise refresh the block's head. -/
def BlockedZSL.insert (bz : BlockedZSL) (key : Int) : BlockedZSL :=
  if bz.blocks.length = 0 then { blocks := [[key]], heads := [key], B := bz.B }
  else
    let numBlocks := bz.blocks.length
    let targetBlockIdx := goSearch bz.heads key
    let bi0 : Int := (targetBlockIdx : Int) - 1
    let bi : Nat := if bi0 < 0 then 0 else if bi0 ≥ (numBlocks : Int) then numBlocks - 1 else bi0.toNat
    let currentBlock := bz.blocks.getD bi []
    let insertPos := lowerBound currentBlock key
    if insertPos < currentBlock.length ∧ currentBlock.getD insertPos 0 = key then bz
    else
      let newBlock := currentBlock.take insertPos ++ [key] ++ currentBlock.drop insertPos
      let blocks1 := bz.blocks.set bi newBlock
      if 2 * bz.B < newBlock.length then
        let leftBlock := newBlock.take bz.B
        let rightBlock := newBlock.drop bz.B
        { blocks := blocks1.take bi ++ [leftBlock, rightBlock] ++ blocks1.drop (bi + 1)
          heads := bz.heads.take bi ++ [leftBlock.headD 0, rightBlock.headD 0] ++ bz.heads.drop (bi + 1)
          B := bz.B }
      else
        { blocks := blocks1, heads := bz.heads.set bi (newBlock.headD 0), B := bz.B }

/-- `BlockedZSL.Delete`: locate the candidate block, remove the key if
found (returning whether it was), merge with an adjacent block when
the block falls below `B/2` and more than one block exists, otherwise
refresh the head when the block stays nonempty. -/
def BlockedZSL.delete (bz : BlockedZSL) (key : Int) : BlockedZSL × Bool :=
  let numBlocks := bz.blocks.length
  let targetBlockIdx := goSearch bz.heads key
  let blockIdx : Int := (targetBlockIdx : Int) - 1
  if blockIdx < 0 ∨ blockIdx ≥ (numBlocks : Int) then (bz, false)
  else
    let bi := blockIdx.toNat
    let currentBlock := bz.blocks.getD bi []
    let keyPos := lowerBound currentBlock key
    if keyPos ≥ currentBlock.length ∨ currentBlock.getD keyPos 0 ≠ key then (bz, false)
    else
      let newBlock := currentBlock.eraseIdx keyPos
      let blocks1 := bz.blocks.set bi newBlock
      if newBlock.length < bz.B / 2 ∧ 1 < numBlocks then
        let mergeIdx := if bi = numBlocks - 1 then bi - 1 else bi
        let merged := blocks1.getD mergeIdx [] ++ blocks1.getD (mergeIdx + 1) []
        ({ blocks := blocks1.take mergeIdx ++ [merged] ++ blocks1.drop (mergeIdx + 2)
           heads := bz.heads.take mergeIdx ++ [merged.headD 0] ++ bz.heads.drop (mergeIdx + 2)
           B := bz.B }, true)
      else
        ({ blocks := blocks1
           heads := if 0 < newBlock.length then bz.heads.set bi (newBlock.headD 0) else bz.heads
           B := bz.B }, true)

/-- The scan loop shared by `BlockedZSL.Range` and
`BlockedZSL.RangeFunc`: walk blocks from `startIdx`, stop at the first
block whose head is `≥ hi`, emit keys `< hi` starting from the lower
bound of `lo` in the first scanned block and from 0 in later ones.
The fuel starts at `len(blocks)` and bounds the remaining iterations
of `blockIdx`, which increases by one per step. -/
def rangeLoop (blocks : List (List Int)) (heads : List Int) (lo hi : Int)
    (startIdx : Nat) : Nat → Nat → List Int
  | _, 0 => []
  | i, fuel + 1 =>
    if i < blocks.length then
      if hi ≤ heads.getD i 0 then []
      else
        let blk := blocks.getD i []
        let s := if i = startIdx then lowerBound blk lo else 0
        ((blk.drop s).takeWhile fun k => decide (k < hi)) ++
          rangeLoop blocks heads lo hi startIdx (i + 1) fuel
    else []

/-- `BlockedZSL.Range`: the result slice is allocated with
`make([]int, 0, hi-lo)`, which panics in Go when `hi - lo` is
negative; that panic is modelled by `none`. -/
def BlockedZSL.range (bz : BlockedZSL) (lo hi : Int) : Option (List Int) :=
  if hi - lo < 0 then none
  else
    let targetBlockIdx := goSearch bz.heads lo
    some (rangeLoop bz.blocks bz.heads lo hi (targetBlockIdx - 1) (targetBlockIdx - 1)
      bz.blocks.length)

/-- `BlockedZSL.RangeFunc`: the sequence of callback arguments; same
scan as `Range` but with no result allocation (hence no panic). -/
def BlockedZSL.rangeFunc (bz : BlockedZSL) (lo hi : Int) : List Int :=
  let targetBlockIdx := goSearch bz.heads lo
  rangeLoop bz.blocks bz.heads lo hi (targetBlockIdx - 1) (targetBlockIdx - 1)
    bz.blocks.length

/-- `BlockedZSL.GetKeys`: concatenation of all blocks. -/
def BlockedZSL.getKeys (bz : BlockedZSL) : List Int := bz.blocks.flatten

/-- `BlockedZSL.GetSize`: total number of stored keys. -/
def BlockedZSL.getSize (bz : BlockedZSL) : Nat := (bz.blocks.map List.length).sum

/-- Modelled on the spec's words for the pointer-table law: the greedy
Zeckendorf term selection for `remaining`, scanning offsets downwards
from index `fuel - 1` (so the largest offset `≤ remaining` is picked
first) and skipping to index `i - 2` after each pick.  Returned are
the selected offset indices, in decreasing order. -/
def greedySelect : Nat → Nat → List Nat
  | _, 0 => []
  | rem, 1 =>
    if rem = 0 then []
    else if fibsOffsets.getD 0 0 ≤ rem then [0] else []
  | rem, li + 2 =>
    if rem = 0 then []
    else if fibsOffsets.getD (li + 1) 0 ≤ rem then
      (li + 1) :: greedySelect (rem - fibsOffsets.getD (li + 1) 0) li
    else greedySelect rem (li + 1)

/-! Helper lemmas about list indexing used by the pointer-table proof. -/

theorem getD_set_self (l : List Nat) (i v : Nat) (h : i < l.length) :
    (l.set i v).getD i 0 = v := by
  induction l generalizing i with
  | nil => simp at h
  | cons a t ih =>
    cases i with
    | zero => simp
    | succ n => simpa using ih n (by simpa using h)

theorem getD_set_ne (l : List Nat) (i j v : Nat) (h : i ≠ j) :
    (l.set i v).getD j 0 = l.getD j 0 := by
  induction l generalizing i j with
  | nil => simp
  | cons a t ih =>
    cases i with
    | zero =>
      cases j with
      | zero => omega
      | succ m => simp
    | succ n =>
      cases j with
      | zero => simp
      | succ m => simpa using ih n m (by omega)

theorem getD_replicate_zero (m j : Nat) : (List.replicate m (0 : Nat)).getD j 0 = 0 := by
  induction m generalizing j with
  | zero => simp
  | succ n ih =>
    cases j with
    | zero => simp
    | succ k => simp [ih k]

theorem range_map_getD {α : Type} (m : Nat) (f : Nat → α) (d : α) (r : Nat) (h : r < m) :
    ((List.range m).map f).getD r d = f r := by
  rw [List.getD_eq_getElem?_getD, List.getElem?_map, List.getElem?_range h]
  rfl

/-- Every index selected by the greedy Zeckendorf scan is below the
starting fuel (i.e. at most the starting offset index). -/
theorem greedySelect_lt : ∀ (fuel rem i : Nat), i ∈ greedySelect rem fuel → i < fuel := by
  intro fuel
  induction fuel using Nat.strong_induction_on with
  | _ fuel ih =>
    match fuel with
    | 0 => intro rem i h; simp [greedySelect] at h
    | 1 =>
      intro rem i h
      rw [greedySelect] at h
      split at h
      · simp at h
      · split at h
        · simp at h; omega
        · simp at h
    | li + 2 =>
      intro rem i h
      rw [greedySelect] at h
      split at h
      · simp at h
      · split at h
        · rcases List.mem_cons.mp h with h1 | h1
          · omega
          · have := ih li (by omega) _ _ h1; omega
        · have := ih (li + 1) (by omega) _ _ h; omega

/-- The greedy Zeckendorf selection never picks two consecutive offset
indices: successive selected indices differ by at least 2. -/
theorem greedySelect_chain : ∀ (fuel rem : Nat),
    (greedySelect rem fuel).Chain' (fun a b => b + 2 ≤ a) := by
  intro fuel
  induction fuel using Nat.strong_induction_on with
  | _ fuel ih =>
    match fuel with
    | 0 => intro rem; simp [greedySelect]
    | 1 =>
      intro rem
      rw [greedySelect]
      split
      · simp
      · split <;> simp
    | li + 2 =>
      intro rem
      rw [greedySelect]
      split
      · simp
      · split
        · refine List.chain'_cons'.mpr ⟨?_, ih li (by omega) _⟩
          intro b hb
          have hb' := List.mem_of_mem_head? hb
          have := greedySelect_lt li _ b hb'
          omega
        · exact ih (li + 1) (by omega) _

/-- The imperative pointer-building loop writes exactly the entries the
greedy Zeckendorf selection prescribes: the cell at level `i + 1` gets
`r + F[i]` when index `i` is selected and `r + F[i] ≤ n`, and every
other cell keeps its previous content. -/
theorem pointerLoop_getD (n r : Nat) :
    ∀ (fuel rem : Nat) (row : List Nat), fuel < row.length → ∀ j : Nat,
      (pointerLoop n r rem fuel row).getD j 0 =
        if 1 ≤ j ∧ (j - 1) ∈ greedySelect rem fuel ∧ r + fibsOffsets.getD (j - 1) 0 ≤ n
        then r + fibsOffsets.getD (j - 1) 0
        else row.getD j 0 := by
  intro fuel
  induction fuel using Nat.strong_induction_on with
  | _ fuel ih =>
    match fuel with
    | 0 =>
      intro rem row hlen j
      rw [pointerLoop, greedySelect]
      simp
    | 1 =>
      intro rem row hlen j
      rw [pointerLoop, greedySelect]
      by_cases hrem : rem = 0
      · simp [hrem]
      · rw [if_neg hrem, if_neg hrem]
        by_cases hf : fibsOffsets.getD 0 0 ≤ rem
        · rw [if_pos hf, if_pos hf]
          by_cases hin : r + fibsOffsets.getD 0 0 ≤ n
          · rw [if_pos hin]
            by_cases hj : j = 1
            · subst hj
              rw [getD_set_self _ _ _ (by omega)]
              rw [if_pos ⟨by omega, by simp, by simpa using hin⟩]
            · rw [getD_set_ne _ _ _ _ (by omega)]
              rw [if_neg ?_]
              intro hcon
              have := List.mem_singleton.mp hcon.2.1
              exact hj (by omega)
          · rw [if_neg hin]
            rw [if_neg ?_]
            intro hcon
            have hj1 : j = 1 := by
              have := List.mem_singleton.mp hcon.2.1
              omega
            subst hj1
            exact hin (by simpa using hcon.2.2)
        · rw [if_neg hf, if_neg hf]
          rw [if_neg ?_]
          intro hcon
          simp at hcon
    | li + 2 =>
      intro rem row hlen j
      rw [pointerLoop, greedySelect]
      by_cases hrem : rem = 0
      · simp [hrem]
      · rw [if_neg hrem, if_neg hrem]
        by_cases hf : fibsOffsets.getD (li + 1) 0 ≤ rem
        · rw [if_pos hf, if_pos hf]
          by_cases hin : r + fibsOffsets.getD (li + 1) 0 ≤ n
          · rw [if_pos hin]
            have hlen' : li < (row.set (li + 2) (r + fibsOffsets.getD (li + 1) 0)).length := by
              simp only [List.length_set]; omega
            rw [ih li (by omega) _ _ hlen' j]
            by_cases hc : 1 ≤ j ∧
                (j - 1) ∈ greedySelect (rem - fibsOffsets.getD (li + 1) 0) li ∧
                r + fibsOffsets.getD (j - 1) 0 ≤ n
            · rw [if_pos hc, if_pos ⟨hc.1, List.mem_cons_of_mem _ hc.2.1, hc.2.2⟩]
            · rw [if_neg hc]
              by_cases hj : j = li + 2
              · subst hj
                have h21 : li + 2 - 1 = li + 1 := rfl
                rw [getD_set_self _ _ _ (by omega)]
                rw [if_pos ⟨by omega, by simp [h21], by simpa [h21] using hin⟩, h21]
              · rw [getD_set_ne _ _ _ _ (by omega)]
                rw [if_neg ?_]
                intro hcon
                rcases List.mem_cons.mp hcon.2.1 with h1 | h1
                · exact hj (by omega)
                · exact hc ⟨hcon.1, h1, hcon.2.2⟩
          · rw [if_neg hin]
            rw [ih li (by omega) _ _ (by omega) j]
            by_cases hc : 1 ≤ j ∧
                (j - 1) ∈ greedySelect (rem - fibsOffsets.getD (li + 1) 0) li ∧
                r + fibsOffsets.getD (j - 1) 0 ≤ n
            · rw [if_pos hc, if_pos ⟨hc.1, List.mem_cons_of_mem _ hc.2.1, hc.2.2⟩]
            · rw [if_neg hc, if_neg ?_]
              intro hcon
              rcases List.mem_cons.mp hcon.2.1 with h1 | h1
              · have hj2 : j = li + 2 := by omega
                subst hj2
                have h21 : li + 2 - 1 = li + 1 := rfl
                rw [h21] at hcon
                exact hin hcon.2.2
              · exact hc ⟨hcon.1, h1, hcon.2.2⟩
        · rw [if_neg hf, if_neg hf]
          exact ih (li + 1) (by omega) _ _ (by omega) j

/-! Helper lemmas about the block partition used for the blocked
construction. -/

theorem chunksGo_nil (b fuel : Nat) : chunksGo b fuel [] = [] := by
  cases fuel <;> rfl

/-- Every chunk except possibly the last has length exactly `b`. -/
theorem chunksGo_dropLast (b : Nat) (hb : 1 ≤ b) :
    ∀ (fuel : Nat) (l : List Int), l.length ≤ fuel →
      ∀ blk ∈ (chunksGo b fuel l).dropLast, blk.length = b := by
  intro fuel
  induction fuel with
  | zero => intro l hl blk hblk; simp [chunksGo] at hblk
  | succ fuel ih =>
    intro l hl blk hblk
    match l with
    | [] => simp [chunksGo] at hblk
    | k :: rest =>
      rw [chunksGo] at hblk
      cases htl : chunksGo b fuel ((k :: rest).drop b) with
      | nil => rw [htl] at hblk; simp at hblk
      | cons c cs =>
        rw [htl] at hblk
        rw [List.dropLast_cons₂] at hblk
        rcases List.mem_cons.mp hblk with rfl | h
        · have hne : (k :: rest).drop b ≠ [] := by
            intro he
            rw [he, chunksGo_nil] at htl
            exact List.noConfusion htl
          have hlt : b < (k :: rest).length := by
            have hd := List.length_drop b (k :: rest)
            have : 0 < ((k :: rest).drop b).length := List.length_pos.mpr hne
            omega
          simp only [List.length_take]
          omega
        · have hdl : ((k :: rest).drop b).length ≤ fuel := by
            have hd := List.length_drop b (k :: rest)
            have : (k :: rest).length ≤ fuel + 1 := hl
            simp only [List.length_cons] at this ⊢
            omega
          exact ih ((k :: rest).drop b) hdl blk (htl ▸ h)

/-! Claim theorems. -/

/-- Claim C1 (code divergence, evaluated): building the blocked engine
from `[1,1,2,2,3]` with `B = 2` keeps the duplicates — `GetKeys()` is
`[1,1,2,2,3]` and `GetSize()` is 5, not the deduplicated `[1,2,3]` / 3
the claim states.  The source computes `uniqueKeys` but discards the
result of every append, so blocks are built from the raw sorted keys. -/
theorem c1_blocked_construction_keeps_duplicates :
    (newBlockedZSL [1, 1, 2, 2, 3] 2).getKeys = [1, 1, 2, 2, 3] ∧
    (newBlockedZSL [1, 1, 2, 2, 3] 2).getSize = 5 := by decide

/-- Claim C2 (code divergence, evaluated): on the engine built from the
empty collection, the static `Search` hits an out-of-range index (the
head row has length `maxLevel + 1 = 1`, yet the final step reads
`next[0][1]`), modelled as `none` — it does not return `false`.  The
empty engine does report size 0. -/
theorem c2_static_search_on_empty_engine_fails :
    StaticZSL.search (newStaticZSL []) 0 = none ∧
    (newStaticZSL []).getSize = 0 := by decide

/-- Claim C3 (code divergence, evaluated): on the engine built from
`[1,3,5,7,9]`, key 7 is stored, yet `Search(7)` returns `false`: the
descent hops from the head to rank 3 at level 3 (key 5 ≤ 7) and rank 3
has no outgoing pointers at any level, while rank 4 (key 7) is only
reachable from rank 2 at level 2 — the pure descent strategy strands. -/
theorem c3_static_search_misses_stored_key :
    StaticZSL.search (newStaticZSL [1, 3, 5, 7, 9]) 7 = some false ∧
    (7 : Int) ∈ (newStaticZSL [1, 3, 5, 7, 9]).getKeys := by decide

/-- Claim C4: the pointer table built by `buildPointers` follows the
Zeckendorf law.  For every rank `r` in `1..n` and offset index `i`
below `maxLevel`, the entry at level `i + 1` is `r + F[i]` exactly when
`i` is selected by the greedy Zeckendorf decomposition of `r` (largest
offset `≤` remaining, then skip to index `i - 2`) and `r + F[i] ≤ n`,
and is the sentinel 0 otherwise; no two consecutive offset indices are
ever selected for the same rank; and rank 0 carries an entry pointer at
each level `L` in `1..maxLevel` to rank `F[L-1]` whenever
`F[L-1] ≤ n`. -/
theorem c4_pointer_table_follows_zeckendorf (keys : List Int) :
    (∀ r, 1 ≤ r → r ≤ keys.length → ∀ i, i < maxLevelFor keys.length →
      ((buildPointers keys).next.getD r []).getD (i + 1) 0 =
        if i ∈ greedySelect r (maxLevelFor keys.length) ∧
            r + fibsOffsets.getD i 0 ≤ keys.length
        then r + fibsOffsets.getD i 0 else 0) ∧
    (∀ r, (greedySelect r (maxLevelFor keys.length)).Chain' fun a b => b + 2 ≤ a) ∧
    (∀ L, 1 ≤ L → L ≤ maxLevelFor keys.length →
      fibsOffsets.getD (L - 1) 0 ≤ keys.length →
      ((buildPointers keys).next.getD 0 []).getD L 0 = fibsOffsets.getD (L - 1) 0) := by
  refine ⟨?_, fun r => greedySelect_chain _ r, ?_⟩
  · intro r hr1 hrn i hi
    have hnext : (buildPointers keys).next =
        (List.range (keys.length + 1)).map (fun q =>
          if q = 0 then headRow keys.length (maxLevelFor keys.length)
          else rankRow keys.length (maxLevelFor keys.length) q) := rfl
    rw [hnext, range_map_getD _ _ _ r (by omega), if_neg (by omega)]
    rw [rankRow,
      pointerLoop_getD keys.length r (maxLevelFor keys.length) r _
        (by rw [List.length_replicate]; omega) (i + 1)]
    simp only [Nat.add_sub_cancel, getD_replicate_zero]
    by_cases hc : i ∈ greedySelect r (maxLevelFor keys.length) ∧
        r + fibsOffsets.getD i 0 ≤ keys.length
    · rw [if_pos ⟨by omega, hc.1, hc.2⟩, if_pos hc]
    · rw [if_neg ?_, if_neg hc]
      intro hcon
      exact hc ⟨hcon.2.1, hcon.2.2⟩
  · intro L hL1 hLm hF
    have hnext : (buildPointers keys).next =
        (List.range (keys.length + 1)).map (fun q =>
          if q = 0 then headRow keys.length (maxLevelFor keys.length)
          else rankRow keys.length (maxLevelFor keys.length) q) := rfl
    rw [hnext, range_map_getD _ _ _ 0 (by omega), if_pos rfl]
    rw [headRow, range_map_getD _ _ _ L (by omega), if_neg (by omega), if_pos hF]

/-- Claim C4 witness: for keys `[10,20,30]` (so `n = 3`), rank 1,
offset index 0, the theorem instantiates with all hypotheses
discharged. -/
theorem c4_witness :
    (1 ≤ 1 ∧ 1 ≤ ([10, 20, 30] : List Int).length ∧
      0 < maxLevelFor ([10, 20, 30] : List Int).length) ∧
    ((buildPointers [10, 20, 30]).next.getD 1 []).getD (0 + 1) 0 =
      (if 0 ∈ greedySelect 1 (maxLevelFor ([10, 20, 30] : List Int).length) ∧
          1 + fibsOffsets.getD 0 0 ≤ ([10, 20, 30] : List Int).length
       then 1 + fibsOffsets.getD 0 0 else 0) :=
  ⟨⟨by decide, by decide, by decide⟩,
    (c4_pointer_table_follows_zeckendorf [10, 20, 30]).1 1 (by decide) (by decide) 0 (by decide)⟩

/-- Claim C5 counterexample: `NewBlockedZSL([1,2,3,4,5], 4)` (an empty
operation sequence) produces two blocks, and the second — not the sole
remaining block — has length 1, strictly below `B/2 = 2`.  So the
claimed `[B/2, 2B]` bound for all non-sole blocks fails already at
construction. -/
theorem c5_counterexample_construction_violates_bounds :
    1 ≤ (newBlockedZSL [1, 2, 3, 4, 5] 4).B ∧
    (newBlockedZSL [1, 2, 3, 4, 5] 4).blocks.length = 2 ∧
    ((newBlockedZSL [1, 2, 3, 4, 5] 4).blocks.getD 1 []).length <
      (newBlockedZSL [1, 2, 3, 4, 5] 4).B / 2 := by decide

/-- Claim C5 (amended): immediately after construction with `B ≥ 1`,
every block except possibly the LAST one has length exactly `B`, hence
within `[B/2, 2B]`; the final block may be arbitrarily short even when
it is not the sole block. -/
theorem c5_amended_construction_block_sizes (keys : List Int) (B : Nat) (hB : 1 ≤ B)
    (blk : List Int) (hblk : blk ∈ ((newBlockedZSL keys B).blocks).dropLast) :
    blk.length = B ∧ B / 2 ≤ blk.length ∧ blk.length ≤ 2 * B := by
  have hblocks : (newBlockedZSL keys B).blocks = chunks B (goSortInts keys) := rfl
  rw [hblocks, chunks, if_neg (by omega)] at hblk
  have hlen := chunksGo_dropLast B hB (goSortInts keys).length (goSortInts keys)
    le_rfl blk hblk
  exact ⟨hlen, by omega, by omega⟩

/-- Claim C5 witness: keys `[1..6]`, `B = 2` give blocks
`[[1,2],[3,4],[5,6]]`; the first block is a non-last block of length
exactly 2. -/
theorem c5_amended_witness :
    1 ≤ 2 ∧ ([1, 2] : List Int) ∈ ((newBlockedZSL [1, 2, 3, 4, 5, 6] 2).blocks).dropLast ∧
    (([1, 2] : List Int).length = 2 ∧ 2 / 2 ≤ ([1, 2] : List Int).length ∧
      ([1, 2] : List Int).length ≤ 2 * 2) :=
  ⟨by decide, by decide,
    c5_amended_construction_block_sizes [1, 2, 3, 4, 5, 6] 2 (by decide) [1, 2] (by decide)⟩

/-- Claim C6 (code divergence, evaluated): on the engine built from
`[1,1,2]` with `B = 1` (blocks `[[1],[1],[2]]`, a state the buggy
non-deduplicating constructor produces), `Range(1,2)` and
`RangeFunc(1,2)` emit `[1]`, while the ascending subsequence of
`GetKeys() = [1,1,2]` within `[1,2)` is `[1,1]` — the head binary
search skips the first block's copy of 1. -/
theorem c6_blocked_range_disagrees_with_getKeys :
    (newBlockedZSL [1, 1, 2] 1).range 1 2 = some [1] ∧
    (newBlockedZSL [1, 1, 2] 1).rangeFunc 1 2 = [1] ∧
    ((newBlockedZSL [1, 1, 2] 1).getKeys).filter
      (fun k => decide ((1 : Int) ≤ k) && decide (k < 2)) = [1, 1] := by decide

/-- Claim C7 (code divergence, evaluated): built from the same
collection `[1,1]` (with `B = 1`) and before any operation, the static
engine reports `GetKeys() = [1]` but the blocked engine reports
`GetKeys() = [1,1]` — the engines disagree because only the static
constructor actually deduplicates. -/
theorem c7_engines_disagree_on_duplicates :
    (newStaticZSL [1, 1]).getKeys = [1] ∧
    (newBlockedZSL [1, 1] 1).getKeys = [1, 1] := by decide

/-- Claim C8 (code divergence, evaluated): starting from
`NewBlockedZSL([1,1,2], 1)`, the first `Delete(1)` succeeds and leaves
state `[[1],[],[2]]` with the stale head 1 on the emptied block; the
second `Delete(1)` then returns `false` and changes nothing although 1
is still stored (in block 0) — deleting routes to the emptied block. -/
theorem c8_delete_false_on_stored_key :
    ((newBlockedZSL [1, 1, 2] 1).delete 1).2 = true ∧
    (1 : Int) ∈ (((newBlockedZSL [1, 1, 2] 1).delete 1).1).getKeys ∧
    ((((newBlockedZSL [1, 1, 2] 1).delete 1).1).delete 1).2 = false ∧
    ((((newBlockedZSL [1, 1, 2] 1).delete 1).1).delete 1).1 =
      ((newBlockedZSL [1, 1, 2] 1).delete 1).1 := by decide

/-- Claim C9 (code divergence, evaluated): `Range(1, 0)` on a blocked
engine does not return normally — the result slice is allocated with
capacity `hi - lo = -1`, which panics (modelled as `none`) — while a
non-inverted empty query such as `Range(0, 1)` does return the empty
slice. -/
theorem c9_blocked_range_fails_on_inverted_bounds :
    (newBlockedZSL [] 2).range 1 0 = none ∧
    (newBlockedZSL [] 2).range 0 1 = some [] := by decide

/-- Claim C10: both constructors sort the caller's slice in place:
after `NewStaticZSL(keys)` or `NewBlockedZSL(keys, B)` the argument
holds exactly the input values (a permutation) in ascending order. -/
theorem c10_constructors_sort_caller_slice (keys : List Int) (B : Nat) (_hB : 1 ≤ B) :
    List.Sorted (· ≤ ·) (newStaticZSLFull keys).2 ∧
    List.Perm (newStaticZSLFull keys).2 keys ∧
    List.Sorted (· ≤ ·) (newBlockedZSLFull keys B).2 ∧
    List.Perm (newBlockedZSLFull keys B).2 keys :=
  ⟨List.sorted_insertionSort _ _, List.perm_insertionSort _ _,
    List.sorted_insertionSort _ _, List.perm_insertionSort _ _⟩

/-- Claim C10 witness: for the unsorted input `[3,1,2]` and `B = 2`,
the caller's slice afterwards is sorted and a permutation of the
input. -/
theorem c10_witness :
    1 ≤ 2 ∧
    (List.Sorted (· ≤ ·) (newStaticZSLFull [3, 1, 2]).2 ∧
     List.Perm (newStaticZSLFull [3, 1, 2]).2 [3, 1, 2] ∧
     List.Sorted (· ≤ ·) (newBlockedZSLFull [3, 1, 2] 2).2 ∧
     List.Perm (newBlockedZSLFull [3, 1, 2] 2).2 [3, 1, 2]) :=
  ⟨by decide, c10_constructors_sort_caller_slice [3, 1, 2] 2 (by decide)⟩

end ZSL
